import Mathlib

/-!
Shallow embedding of the case-conversion core of the `utils` repository:
the word tokenizer `extractWords`, the ten-way formatter `convertCase`,
the per-word helper `capitalize`, and the `toCase` wrapper object.

Strings are embedded as `List Char`; all characters that the tokenizer
keeps are ASCII alphanumerics, so the JavaScript `toLowerCase` /
`toUpperCase` calls (applied only to such characters, plus the joiner
characters, which they fix) are embedded as the ASCII case maps
`asciiLower` / `asciiUpper`.  `convertCase` returns `Except String
(List Char)`: the `throw new Error(...)` in the `default` branch of the
source `switch` becomes the `Except.error` branch carrying the message
string.  The `typeof input !== "string"` guards of the source cannot
fire in a typed embedding and are omitted.
-/

/-- Test for an ASCII lowercase letter, the regex class `[a-z]`. -/
def isLowerA (c : Char) : Bool := 97 ≤ c.toNat && c.toNat ≤ 122

/-- Test for an ASCII uppercase letter, the regex class `[A-Z]`. -/
def isUpperA (c : Char) : Bool := 65 ≤ c.toNat && c.toNat ≤ 90

/-- Test for an ASCII digit, the regex class `[0-9]`. -/
def isDigitA (c : Char) : Bool := 48 ≤ c.toNat && c.toNat ≤ 57

/-- Test for an ASCII letter, the regex class `[a-zA-Z]`. -/
def isLetterA (c : Char) : Bool := isLowerA c || isUpperA c

/-- Test for an ASCII alphanumeric character, the regex class `[a-zA-Z0-9]`. -/
def isAlnumA (c : Char) : Bool := isLetterA c || isDigitA c

/-- The JavaScript whitespace set used by `String.prototype.trim`
(ECMAScript WhiteSpace and LineTerminator code points). -/
def isJsWhitespace (c : Char) : Bool :=
  c.toNat = 9 || c.toNat = 10 || c.toNat = 11 || c.toNat = 12 || c.toNat = 13 ||
  c.toNat = 32 || c.toNat = 160 || c.toNat = 0x1680 ||
  (0x2000 ≤ c.toNat && c.toNat ≤ 0x200A) ||
  c.toNat = 0x2028 || c.toNat = 0x2029 || c.toNat = 0x202F || c.toNat = 0x205F ||
  c.toNat = 0x3000 || c.toNat = 0xFEFF

/-- The zero-width split conditions of the tokenizer regex, between a
character `c1` and the immediately following character `c2`, with `rest`
the characters after `c2` (the acronym rule looks one further character
ahead):
`(?<=[a-z])(?=[A-Z])`, `(?<=[A-Z])(?=[A-Z][a-z])`,
`(?<=[a-zA-Z])(?=[0-9])`, `(?<=[0-9])(?=[a-zA-Z])`. -/
def splitBoundary (c1 c2 : Char) (rest : List Char) : Bool :=
  (isLowerA c1 && isUpperA c2) ||
  (isUpperA c1 && isUpperA c2 && (match rest with | c3 :: _ => isLowerA c3 | [] => false)) ||
  (isLetterA c1 && isDigitA c2) ||
  (isDigitA c1 && isLetterA c2)

/-- Whether a zero-width split point of the tokenizer regex lies
immediately after `c`, when `l` is the remaining input. -/
def boundaryNext (c : Char) : List Char → Bool
  | [] => false
  | c2 :: rest2 => splitBoundary c c2 rest2

/-- One pass of `input.split(regex).filter(word => word.trim().length > 0)`
from `extractWords`: `cur` is the (alphanumeric) token being accumulated.
A run of non-alphanumeric characters (the `[^a-zA-Z0-9]+` alternative)
flushes the current token and is discarded; a zero-width boundary flushes
the current token; empty tokens are never emitted, which is the filter. -/
def wordsAux : List Char → List Char → List (List Char)
  | cur, [] => if cur = [] then [] else [cur]
  | cur, c :: rest =>
    if isAlnumA c then
      if boundaryNext c rest then (cur ++ [c]) :: wordsAux [] rest
      else wordsAux (cur ++ [c]) rest
    else
      (if cur = [] then [] else [cur]) ++ wordsAux [] rest

/-- Embedding of `extractWords`: the `!input.trim()` guard returns `[]`
for an empty or all-whitespace input; otherwise the input is split by the
combined regex and empty tokens are filtered out. -/
def extractWords (input : List Char) : List (List Char) :=
  if input.all isJsWhitespace then [] else wordsAux [] input

/-- ASCII uppercase map: the effect of JavaScript `toUpperCase` on the
characters reachable here (ASCII alphanumerics and joiners). -/
def asciiUpper (c : Char) : Char :=
  if isLowerA c then Char.ofNat (c.toNat - 32) else c

/-- ASCII lowercase map: the effect of JavaScript `toLowerCase` on the
characters reachable here (ASCII alphanumerics and joiners). -/
def asciiLower (c : Char) : Char :=
  if isUpperA c then Char.ofNat (c.toNat + 32) else c

/-- Embedding of the `capitalize` helper of `convertCase`:
`word.charAt(0).toUpperCase() + word.slice(1).toLowerCase()`. -/
def capitalize (word : List Char) : List Char :=
  match word with
  | [] => []
  | c :: cs => asciiUpper c :: cs.map asciiLower

/-- Embedding of JavaScript `Array.prototype.join(sep)` on a list of
strings: `[].join = ""`, `[w].join = w`, and otherwise the elements
interleaved with `sep`. -/
def joinSep (sep : List Char) : List (List Char) → List Char
  | [] => []
  | [w] => w
  | w :: ws => w ++ sep ++ joinSep sep ws

/-- Embedding of `convertCase`.  The branches follow the source `switch`
in source order; the final `else` is the `default` branch, which throws
an error naming the unsupported case type.  The check for an empty word
sequence precedes the `switch`, as in the source. -/
def convertCase (input : List Char) (caseType : String) : Except String (List Char) :=
  let words := extractWords input
  if words.length = 0 then .ok []
  else if caseType = "lowercase" then .ok (joinSep [' '] (words.map (List.map asciiLower)))
  else if caseType = "uppercase" then .ok (joinSep [' '] (words.map (List.map asciiUpper)))
  else if caseType = "sentence" then
    .ok (capitalize (joinSep [' '] (words.map (List.map asciiLower))))
  else if caseType = "title" then .ok (joinSep [' '] (words.map capitalize))
  else if caseType = "snake" then .ok (joinSep ['_'] (words.map (List.map asciiLower)))
  else if caseType = "kebab" then .ok (joinSep ['-'] (words.map (List.map asciiLower)))
  else if caseType = "camel" then
    .ok (if words.length = 1 then (words.headD []).map asciiLower
         else (words.headD []).map asciiLower ++ joinSep [] ((words.drop 1).map capitalize))
  else if caseType = "pascal" then .ok (joinSep [] (words.map capitalize))
  else if caseType = "dot" then .ok (joinSep ['.'] (words.map (List.map asciiLower)))
  else if caseType = "constant" then .ok (joinSep ['_'] (words.map (List.map asciiUpper)))
  else .error ("Unsupported case type: " ++ caseType)

/-- The closed ten-element enumeration of supported case types
(the `CaseType` union of the source). -/
def validCaseTypes : List String :=
  ["lowercase", "uppercase", "sentence", "title", "snake",
   "kebab", "camel", "pascal", "dot", "constant"]

/-- The joiner characters a given case type may place between words:
space for the four spaced formats, underscore for `snake`/`constant`,
hyphen for `kebab`, dot for `dot`, and none for `camel`/`pascal`. -/
def joinerOf (caseType : String) : List Char :=
  if caseType = "lowercase" || caseType = "uppercase" ||
     caseType = "sentence" || caseType = "title" then [' ']
  else if caseType = "snake" || caseType = "constant" then ['_']
  else if caseType = "kebab" then ['-']
  else if caseType = "dot" then ['.']
  else []

/-- Shape of the `toCase` wrapper object: ten bound single-argument
functions, one per case type. -/
structure ToCase where
  lower : List Char → Except String (List Char)
  upper : List Char → Except String (List Char)
  sentence : List Char → Except String (List Char)
  title : List Char → Except String (List Char)
  snake : List Char → Except String (List Char)
  kebab : List Char → Except String (List Char)
  camel : List Char → Except String (List Char)
  pascal : List Char → Except String (List Char)
  dot : List Char → Except String (List Char)
  constant : List Char → Except String (List Char)

/-- Embedding of the `toCase` wrapper object of the source. -/
def toCase : ToCase where
  lower := fun input => convertCase input "lowercase"
  upper := fun input => convertCase input "uppercase"
  sentence := fun input => convertCase input "sentence"
  title := fun input => convertCase input "title"
  snake := fun input => convertCase input "snake"
  kebab := fun input => convertCase input "kebab"
  camel := fun input => convertCase input "camel"
  pascal := fun input => convertCase input "pascal"
  dot := fun input => convertCase input "dot"
  constant := fun input => convertCase input "constant"

/-- A word has no internal zero-width split point of the tokenizer regex
(evaluated with the word standing alone; the acronym look-ahead past the
last character behaves identically when the word is followed by a
non-alphanumeric joiner or by the end of the input). -/
def noSplit : List Char → Bool
  | c1 :: c2 :: rest => !splitBoundary c1 c2 rest && noSplit (c2 :: rest)
  | _ => true

/-- A word is homogeneous: all ASCII letters, or all ASCII digits. -/
def homogWord (w : List Char) : Prop :=
  (∀ c ∈ w, isLetterA c = true) ∨ (∀ c ∈ w, isDigitA c = true)

/-- Uppercase the first character of a word, leaving the rest unchanged
(the effect of the sentence-case `capitalize` on an already-lowercased
joined string). -/
def upperFirst : List Char → List Char
  | [] => []
  | c :: cs => asciiUpper c :: cs

/-- C9: each of the ten bound functions of the `toCase` wrapper returns
exactly the value of `convertCase` at the corresponding case type. -/
theorem toCase_fields_eq_convertCase (input : List Char) :
    toCase.lower input = convertCase input "lowercase" ∧
    toCase.upper input = convertCase input "uppercase" ∧
    toCase.sentence input = convertCase input "sentence" ∧
    toCase.title input = convertCase input "title" ∧
    toCase.snake input = convertCase input "snake" ∧
    toCase.kebab input = convertCase input "kebab" ∧
    toCase.camel input = convertCase input "camel" ∧
    toCase.pascal input = convertCase input "pascal" ∧
    toCase.dot input = convertCase input "dot" ∧
    toCase.constant input = convertCase input "constant" :=
  ⟨rfl, rfl, rfl, rfl, rfl, rfl, rfl, rfl, rfl, rfl⟩

/-- C6: `convertCase "HTTPRequest" "camel" = "httpRequest"` and
`convertCase "XMLHttpRequest" "pascal" = "XmlHttpRequest"`: the acronym
rule splits off the trailing uppercase letter that starts a following
word, and `capitalize` uppercases the first character and lowercases all
remaining characters of a word regardless of original casing. -/
theorem convertCase_acronym_examples :
    convertCase "HTTPRequest".toList "camel" = Except.ok "httpRequest".toList ∧
    convertCase "XMLHttpRequest".toList "pascal" = Except.ok "XmlHttpRequest".toList ∧
    ∀ (c : Char) (cs : List Char), capitalize (c :: cs) = asciiUpper c :: cs.map asciiLower :=
  ⟨rfl, rfl, fun _ _ => rfl⟩

/-- C2: when the extracted word sequence is empty, `convertCase` returns
the empty string without an error for every case-type value, including
values outside the ten recognized ones: the empty-word-sequence check
precedes the unsupported-case-type check. -/
theorem convertCase_empty_words_ok (input : List Char) (caseType : String)
    (h : extractWords input = []) : convertCase input caseType = Except.ok [] := by
  simp [convertCase, h]

/-- Witness for C2 at the concrete input `"!!!"` (no alphanumeric
character) and the unsupported case type `"not-a-real-case"`. -/
theorem convertCase_empty_words_ok_witness :
    convertCase "!!!".toList "not-a-real-case" = Except.ok [] :=
  convertCase_empty_words_ok "!!!".toList "not-a-real-case" (by decide)

/-- Counterexample to C1 as stated: at the empty input, an unrecognized
case type does not raise: `convertCase "" "not-a-real-case"` returns the
empty string successfully, because the empty-word-sequence check comes
first. -/
theorem convertCase_c1_counterexample :
    validCaseTypes.contains "not-a-real-case" = false ∧
    convertCase [] "not-a-real-case" = Except.ok [] :=
  ⟨rfl, rfl⟩

/-- C1 (amended): for every input whose extracted word sequence is
non-empty, every case-type value outside the ten-element enumeration
makes `convertCase` fail with an error identifying the offending value;
and for every case-type value inside the enumeration, `convertCase`
never raises an error on any input. -/
theorem convertCase_unsupported_iff (input : List Char) (caseType : String) :
    (extractWords input ≠ [] → validCaseTypes.contains caseType = false →
      convertCase input caseType = Except.error ("Unsupported case type: " ++ caseType)) ∧
    (validCaseTypes.contains caseType = true →
      ∀ msg, convertCase input caseType ≠ Except.error msg) := by
  constructor
  · intro hne hct
    simp only [validCaseTypes, List.contains_cons, List.contains_nil, Bool.or_eq_false_iff,
      beq_eq_false_iff_ne, ne_eq] at hct
    obtain ⟨h1, h2, h3, h4, h5, h6, h7, h8, h9, h10, -⟩ := hct
    have hlen : ¬((extractWords input).length = 0) := by
      simpa [List.length_eq_zero] using hne
    simp [convertCase, hlen, h1, h2, h3, h4, h5, h6, h7, h8, h9, h10]
  · intro hct msg
    simp only [validCaseTypes, List.contains_cons, List.contains_nil, Bool.or_eq_true,
      beq_iff_eq] at hct
    by_cases hlen : (extractWords input).length = 0
    · simp [convertCase, hlen]
    · rcases hct with h | h | h | h | h | h | h | h | h | h | h
      all_goals first
        | (subst h; simp [convertCase, hlen])
        | (simp at h)

/-- Witness for C1 (amended) at the concrete input `"test"` with the
unrecognized case type `"not-a-real-case"` (error branch) and with the
recognized case type `"snake"` (success branch). -/
theorem convertCase_unsupported_iff_witness :
    convertCase "test".toList "not-a-real-case" =
      Except.error ("Unsupported case type: " ++ "not-a-real-case") ∧
    convertCase "test".toList "snake" ≠ Except.error "boom" :=
  ⟨(convertCase_unsupported_iff "test".toList "not-a-real-case").1 (by decide) (by decide),
   (convertCase_unsupported_iff "test".toList "snake").2 (by decide) "boom"⟩

/-- C7: when exactly one word is extracted from the input, camel case
returns that word lowercased in full, with no capitalization applied. -/
theorem convertCase_camel_single_word (input : List Char) (w : List Char)
    (h : extractWords input = [w]) :
    convertCase input "camel" = Except.ok (w.map asciiLower) := by
  simp [convertCase, h]

/-- Witness for C7 at the concrete input `"HELLO"`, whose extracted word
sequence is the single word `"HELLO"`. -/
theorem convertCase_camel_single_word_witness :
    convertCase "HELLO".toList "camel" = Except.ok ("HELLO".toList.map asciiLower) :=
  convertCase_camel_single_word "HELLO".toList "HELLO".toList (by decide)

/-- Packing a valid code point below the surrogate range round-trips
through `Char.ofNat`. -/
theorem char_toNat_ofNat_of_lt {n : Nat} (h : n < 55296) : (Char.ofNat n).toNat = n := by
  have hv : n.isValidChar := Or.inl h
  simp [Char.ofNat, hv, Char.ofNatAux, Char.toNat, UInt32.toNat]

/-- Characters with equal code points are equal. -/
theorem char_eq_of_toNat {c d : Char} (h : c.toNat = d.toNat) : c = d :=
  Char.ext (UInt32.ext h)

/-- An ASCII alphanumeric that is not a letter is a digit. -/
theorem digit_of_alnum_not_letter {c : Char} (ha : isAlnumA c = true)
    (hl : isLetterA c = false) : isDigitA c = true := by
  simp [isAlnumA, isLetterA, isLowerA, isUpperA, isDigitA] at *
  omega

/-- An ASCII alphanumeric that is not a digit is a letter. -/
theorem letter_of_alnum_not_digit {c : Char} (ha : isAlnumA c = true)
    (hd : isDigitA c = false) : isLetterA c = true := by
  simp [isAlnumA, isLetterA, isLowerA, isUpperA, isDigitA] at *
  omega

/-- An ASCII letter is not a digit. -/
theorem not_digit_of_letter {c : Char} (h : isLetterA c = true) : isDigitA c = false := by
  simp [isLetterA, isLowerA, isUpperA, isDigitA] at *
  omega

/-- An ASCII lowercase letter is a letter. -/
theorem letter_of_lower {c : Char} (h : isLowerA c = true) : isLetterA c = true := by
  simp [isLetterA, h]

/-- An ASCII uppercase letter is a letter. -/
theorem letter_of_upper {c : Char} (h : isUpperA c = true) : isLetterA c = true := by
  simp [isLetterA, h]

/-- An ASCII letter is alphanumeric. -/
theorem alnum_of_letter {c : Char} (h : isLetterA c = true) : isAlnumA c = true := by
  simp [isAlnumA, h]

/-- An ASCII digit is alphanumeric. -/
theorem alnum_of_digit {c : Char} (h : isDigitA c = true) : isAlnumA c = true := by
  simp [isAlnumA, h]

/-- A JavaScript whitespace character is not ASCII alphanumeric. -/
theorem not_alnum_of_jsWhitespace {c : Char} (h : isJsWhitespace c = true) :
    isAlnumA c = false := by
  simp [isJsWhitespace] at h
  simp [isAlnumA, isLetterA, isLowerA, isUpperA, isDigitA]
  omega

/-- Lowercasing leaves a character that is not an uppercase letter unchanged. -/
theorem asciiLower_of_not_upper {c : Char} (h : isUpperA c = false) : asciiLower c = c := by
  simp [asciiLower, h]

/-- Lowercasing an uppercase letter shifts its code point up by 32. -/
theorem toNat_asciiLower_of_upper {c : Char} (h : isUpperA c = true) :
    (asciiLower c).toNat = c.toNat + 32 := by
  have h' : 65 ≤ c.toNat ∧ c.toNat ≤ 90 := by simpa [isUpperA] using h
  have hlt : c.toNat + 32 < 55296 := by omega
  simp [asciiLower, h, char_toNat_ofNat_of_lt hlt]

/-- Uppercasing leaves a character that is not a lowercase letter unchanged. -/
theorem asciiUpper_of_not_lower {c : Char} (h : isLowerA c = false) : asciiUpper c = c := by
  simp [asciiUpper, h]

/-- Uppercasing a lowercase letter shifts its code point down by 32. -/
theorem toNat_asciiUpper_of_lower {c : Char} (h : isLowerA c = true) :
    (asciiUpper c).toNat = c.toNat - 32 := by
  have h' : 97 ≤ c.toNat ∧ c.toNat ≤ 122 := by simpa [isLowerA] using h
  have hlt : c.toNat - 32 < 55296 := by omega
  simp [asciiUpper, h, char_toNat_ofNat_of_lt hlt]

/-- Lowercasing a letter produces a lowercase letter. -/
theorem isLowerA_asciiLower_of_letter {c : Char} (h : isLetterA c = true) :
    isLowerA (asciiLower c) = true := by
  by_cases hu : isUpperA c = true
  · have := toNat_asciiLower_of_upper hu
    simp [isUpperA] at hu
    simp [isLowerA, this]
    omega
  · have hu' : isUpperA c = false := by simpa using hu
    rw [asciiLower_of_not_upper hu']
    simp [isLetterA, hu'] at h
    exact h

/-- Uppercasing a letter produces an uppercase letter. -/
theorem isUpperA_asciiUpper_of_letter {c : Char} (h : isLetterA c = true) :
    isUpperA (asciiUpper c) = true := by
  by_cases hl : isLowerA c = true
  · have := toNat_asciiUpper_of_lower hl
    simp [isLowerA] at hl
    simp [isUpperA, this]
    omega
  · have hl' : isLowerA c = false := by simpa using hl
    rw [asciiUpper_of_not_lower hl']
    simp [isLetterA, hl'] at h
    exact h

/-- Lowercasing a digit leaves it unchanged. -/
theorem asciiLower_of_digit {c : Char} (h : isDigitA c = true) : asciiLower c = c := by
  apply asciiLower_of_not_upper
  simp [isDigitA] at h
  simp [isUpperA]
  omega

/-- Uppercasing a digit leaves it unchanged. -/
theorem asciiUpper_of_digit {c : Char} (h : isDigitA c = true) : asciiUpper c = c := by
  apply asciiUpper_of_not_lower
  simp [isDigitA] at h
  simp [isLowerA]
  omega

/-- Lowercasing preserves the alphanumeric class. -/
theorem isAlnumA_asciiLower {c : Char} (h : isAlnumA c = true) :
    isAlnumA (asciiLower c) = true := by
  by_cases hl : isLetterA c = true
  · exact alnum_of_letter (letter_of_lower (isLowerA_asciiLower_of_letter hl))
  · have hd : isDigitA c = true := digit_of_alnum_not_letter h (by simpa using hl)
    rw [asciiLower_of_digit hd]
    exact h

/-- Uppercasing preserves the alphanumeric class. -/
theorem isAlnumA_asciiUpper {c : Char} (h : isAlnumA c = true) :
    isAlnumA (asciiUpper c) = true := by
  by_cases hl : isLetterA c = true
  · exact alnum_of_letter (letter_of_upper (isUpperA_asciiUpper_of_letter hl))
  · have hd : isDigitA c = true := digit_of_alnum_not_letter h (by simpa using hl)
    rw [asciiUpper_of_digit hd]
    exact h

/-- Lowercasing is idempotent. -/
theorem asciiLower_asciiLower (c : Char) : asciiLower (asciiLower c) = asciiLower c := by
  by_cases hu : isUpperA c = true
  · apply asciiLower_of_not_upper
    have := toNat_asciiLower_of_upper hu
    simp [isUpperA] at hu ⊢
    omega
  · have hu' : isUpperA c = false := by simpa using hu
    rw [asciiLower_of_not_upper hu', asciiLower_of_not_upper hu']

/-- Lowercasing after uppercasing agrees with lowercasing directly. -/
theorem asciiLower_asciiUpper (c : Char) : asciiLower (asciiUpper c) = asciiLower c := by
  by_cases hl : isLowerA c = true
  · have ht : (asciiUpper c).toNat = c.toNat - 32 := toNat_asciiUpper_of_lower hl
    simp [isLowerA] at hl
    have hu : isUpperA (asciiUpper c) = true := by
      simp [isUpperA, ht]; omega
    have h1 := toNat_asciiLower_of_upper hu
    have h2 : isUpperA c = false := by simp [isUpperA]; omega
    rw [asciiLower_of_not_upper h2]
    apply char_eq_of_toNat
    omega
  · have hl' : isLowerA c = false := by simpa using hl
    rw [asciiUpper_of_not_lower hl']

/-- The concatenation of the tokens produced by the splitting pass is the
pending token followed by the alphanumeric characters of the remaining
input, in source order. -/
theorem wordsAux_join (l : List Char) : ∀ cur : List Char,
    (wordsAux cur l).join = cur ++ l.filter isAlnumA := by
  induction l with
  | nil =>
    intro cur
    by_cases h : cur = [] <;> simp [wordsAux, h]
  | cons c rest ih =>
    intro cur
    by_cases h1 : isAlnumA c
    · by_cases h2 : boundaryNext c rest
      · simp [wordsAux, h1, h2, ih, List.filter_cons]
      · simp [wordsAux, h1, h2, ih, List.filter_cons]
    · by_cases h3 : cur = [] <;>
        simp [wordsAux, h1, h3, ih, List.filter_cons]

/-- Every token produced by the splitting pass is non-empty. -/
theorem wordsAux_mem_ne_nil (l : List Char) : ∀ (cur w : List Char),
    w ∈ wordsAux cur l → w ≠ [] := by
  induction l with
  | nil =>
    intro cur w hw
    by_cases h : cur = [] <;> simp [wordsAux, h] at hw
    subst hw; exact h
  | cons c rest ih =>
    intro cur w hw
    by_cases h1 : isAlnumA c
    · by_cases h2 : boundaryNext c rest
      · simp [wordsAux, h1, h2] at hw
        rcases hw with hw | hw
        · subst hw; simp
        · exact ih [] w hw
      · simp [wordsAux, h1, h2] at hw
        exact ih (cur ++ [c]) w hw
    · by_cases h3 : cur = [] <;> simp [wordsAux, h1, h3] at hw
      · exact ih [] w hw
      · rcases hw with hw | hw
        · subst hw; exact h3
        · exact ih [] w hw

/-- Every character of every token produced by the splitting pass is
ASCII alphanumeric, provided the pending token is. -/
theorem wordsAux_mem_alnum (l : List Char) : ∀ cur : List Char,
    (∀ c ∈ cur, isAlnumA c = true) →
    ∀ w ∈ wordsAux cur l, ∀ c ∈ w, isAlnumA c = true := by
  induction l with
  | nil =>
    intro cur hcur w hw
    by_cases h : cur = [] <;> simp [wordsAux, h] at hw
    subst hw; exact hcur
  | cons c rest ih =>
    intro cur hcur w hw
    by_cases h1 : isAlnumA c
    · have hcur' : ∀ x ∈ cur ++ [c], isAlnumA x = true := by
        intro x hx
        rcases List.mem_append.mp hx with hx | hx
        · exact hcur x hx
        · simp at hx; subst hx; exact h1
      by_cases h2 : boundaryNext c rest
      · simp [wordsAux, h1, h2] at hw
        rcases hw with hw | hw
        · subst hw; exact hcur'
        · exact ih [] (by simp) w hw
      · simp [wordsAux, h1, h2] at hw
        exact ih (cur ++ [c]) hcur' w hw
    · by_cases h3 : cur = [] <;> simp [wordsAux, h1, h3] at hw
      · exact ih [] (by simp) w hw
      · rcases hw with hw | hw
        · subst hw; exact hcur
        · exact ih [] (by simp) w hw

/-- When no split point lies between two adjacent alphanumeric
characters, they are of the same kind: both letters or both digits. -/
theorem letter_eq_of_no_boundary {c c2 : Char} {r : List Char}
    (hb : splitBoundary c c2 r = false) (hc : isAlnumA c = true)
    (hc2 : isAlnumA c2 = true) : isLetterA c2 = isLetterA c := by
  simp only [splitBoundary, Bool.or_eq_false_iff] at hb
  obtain ⟨⟨⟨-, -⟩, h3⟩, h4⟩ := hb
  by_cases hl : isLetterA c = true
  · have h3' : isDigitA c2 = false := by
      cases hd : isDigitA c2
      · rfl
      · rw [hl, hd] at h3; simp at h3
    rw [hl, letter_of_alnum_not_digit hc2 h3']
  · have hl' : isLetterA c = false := by simpa using hl
    have hd : isDigitA c = true := digit_of_alnum_not_letter hc hl'
    have h4' : isLetterA c2 = false := by
      cases hle : isLetterA c2
      · rfl
      · rw [hd, hle] at h4; simp at h4
    rw [hl', h4']

/-- Every token produced by the splitting pass is homogeneous, provided
the pending token consists of alphanumerics of one kind `k` compatible
with the next character of the input. -/
theorem wordsAux_mem_homog (l : List Char) : ∀ (cur : List Char) (k : Bool),
    (∀ c ∈ cur, isAlnumA c = true ∧ isLetterA c = k) →
    (cur ≠ [] → ∀ c2 r2, l = c2 :: r2 → isAlnumA c2 = true → isLetterA c2 = k) →
    ∀ w ∈ wordsAux cur l, homogWord w := by
  have homog_of_kind : ∀ (w : List Char) (k : Bool),
      (∀ c ∈ w, isAlnumA c = true ∧ isLetterA c = k) → homogWord w := by
    intro w k hk
    cases k
    · right
      intro c hc
      exact digit_of_alnum_not_letter (hk c hc).1 (hk c hc).2
    · left
      intro c hc
      exact (hk c hc).2
  induction l with
  | nil =>
    intro cur k hcur _ w hw
    by_cases h : cur = [] <;> simp [wordsAux, h] at hw
    subst hw; exact homog_of_kind _ _ hcur
  | cons c rest ih =>
    intro cur k hcur hcompat w hw
    by_cases h1 : isAlnumA c
    · have hkc : isLetterA c = (if cur = [] then isLetterA c else k) := by
        by_cases hc : cur = []
        · simp [hc]
        · simp [hc]
          exact hcompat hc c rest rfl h1
      have hcur' : ∀ x ∈ cur ++ [c],
          isAlnumA x = true ∧ isLetterA x = (if cur = [] then isLetterA c else k) := by
        intro x hx
        rcases List.mem_append.mp hx with hx | hx
        · have hne : cur ≠ [] := by intro hcontra; subst hcontra; simp at hx
          simp [hne]
          exact hcur x hx
        · simp at hx; subst hx
          exact ⟨h1, hkc⟩
      by_cases h2 : boundaryNext c rest
      · simp [wordsAux, h1, h2] at hw
        rcases hw with hw | hw
        · subst hw
          exact homog_of_kind _ _ hcur'
        · exact ih [] true (by simp) (by simp) w hw
      · simp [wordsAux, h1, h2] at hw
        refine ih (cur ++ [c]) (if cur = [] then isLetterA c else k) hcur' ?_ w hw
        intro _ c2 r2 hrest hc2
        subst hrest
        have hb : splitBoundary c c2 r2 = false := by
          simpa [boundaryNext] using h2
        rw [letter_eq_of_no_boundary hb h1 hc2]
        exact hkc
    · by_cases h3 : cur = [] <;> simp [wordsAux, h1, h3] at hw
      · exact ih [] true (by simp) (by simp) w hw
      · rcases hw with hw | hw
        · subst hw; exact homog_of_kind _ _ hcur
        · exact ih [] true (by simp) (by simp) w hw

/-- Bundle of the structural facts about extracted words: every word is
non-empty, all of its characters are ASCII alphanumeric, and it is
homogeneous. -/
theorem extractWords_mem_props {s w : List Char} (hw : w ∈ extractWords s) :
    w ≠ [] ∧ (∀ c ∈ w, isAlnumA c = true) ∧ homogWord w := by
  unfold extractWords at hw
  by_cases hall : s.all isJsWhitespace
  · simp [hall] at hw
  · simp only [hall, if_false] at hw
    exact ⟨wordsAux_mem_ne_nil s [] w hw,
      wordsAux_mem_alnum s [] (by simp) w hw,
      wordsAux_mem_homog s [] true (by simp) (by simp) w hw⟩

/-- C3: every token of `extractWords s` is non-empty and contains only
characters in `[A-Za-z0-9]`, and the tokens occur in the same left-to-right
order as their source positions: their concatenation is exactly the
subsequence of alphanumeric characters of `s`. -/
theorem extractWords_tokens_wf (s : List Char) :
    (∀ w ∈ extractWords s, w ≠ [] ∧ ∀ c ∈ w, isAlnumA c = true) ∧
    (extractWords s).join = s.filter isAlnumA := by
  constructor
  · intro w hw
    exact ⟨(extractWords_mem_props hw).1, (extractWords_mem_props hw).2.1⟩
  · unfold extractWords
    by_cases hall : s.all isJsWhitespace
    · simp only [hall, if_true, List.join_nil]
      rw [List.all_eq_true] at hall
      symm
      rw [List.filter_eq_nil]
      intro c hc
      simp [not_alnum_of_jsWhitespace (hall c hc)]
    · simp only [hall, if_false]
      exact wordsAux_join s []

/-- Witness for C3 at the concrete input `"myVar2"`, its first token
`"my"` and that token's first character. -/
theorem extractWords_tokens_wf_witness :
    ("my".toList ≠ [] ∧ isAlnumA 'm' = true) ∧
    (extractWords "myVar2".toList).join = "myVar2".toList.filter isAlnumA := by
  refine ⟨⟨((extractWords_tokens_wf "myVar2".toList).1 "my".toList (by decide)).1,
    ((extractWords_tokens_wf "myVar2".toList).1 "my".toList (by decide)).2 'm' (by decide)⟩,
    (extractWords_tokens_wf "myVar2".toList).2⟩

/-- C10: every word returned by `extractWords` is homogeneous: entirely
ASCII letters or entirely ASCII digits, because the letter-digit and
digit-letter rules split every transition between the two kinds. -/
theorem extractWords_words_homog (s : List Char) :
    ∀ w ∈ extractWords s, homogWord w := by
  intro w hw
  exact (extractWords_mem_props hw).2.2

/-- Witness for C10 at the concrete input `"version2"`, whose extracted
words are `"version"` and `"2"`. -/
theorem extractWords_words_homog_witness :
    homogWord "version".toList ∧ homogWord "2".toList :=
  ⟨extractWords_words_homog "version2".toList "version".toList (by decide),
   extractWords_words_homog "version2".toList "2".toList (by decide)⟩

/-- A lowercase letter is not an uppercase letter. -/
theorem not_upper_of_lower {c : Char} (h : isLowerA c = true) : isUpperA c = false := by
  simp [isLowerA] at h
  rw [← Bool.not_eq_true]
  simp [isUpperA]
  omega

/-- An uppercase letter is not a lowercase letter. -/
theorem not_lower_of_upper {c : Char} (h : isUpperA c = true) : isLowerA c = false := by
  simp [isUpperA] at h
  rw [← Bool.not_eq_true]
  simp [isLowerA]
  omega

/-- A digit is not a letter. -/
theorem not_letter_of_digit {c : Char} (h : isDigitA c = true) : isLetterA c = false := by
  simp [isDigitA] at h
  rw [← Bool.not_eq_true]
  simp [isLetterA, isLowerA, isUpperA]
  omega

/-- If a character is not a letter, it is not a lowercase letter. -/
theorem not_lower_of_not_letter {c : Char} (h : isLetterA c = false) : isLowerA c = false := by
  cases hl : isLowerA c
  · rfl
  · rw [letter_of_lower hl] at h; cases h

/-- If a character is not a letter, it is not an uppercase letter. -/
theorem not_upper_of_not_letter {c : Char} (h : isLetterA c = false) : isUpperA c = false := by
  cases hu : isUpperA c
  · rfl
  · rw [letter_of_upper hu] at h; cases h

/-- A non-alphanumeric character is not a letter. -/
theorem not_letter_of_not_alnum {c : Char} (h : isAlnumA c = false) : isLetterA c = false := by
  cases hl : isLetterA c
  · rfl
  · rw [alnum_of_letter hl] at h; cases h

/-- A non-alphanumeric character is not a digit. -/
theorem not_digit_of_not_alnum {c : Char} (h : isAlnumA c = false) : isDigitA c = false := by
  cases hd : isDigitA c
  · rfl
  · rw [alnum_of_digit hd] at h; cases h

/-- A non-alphanumeric character is not a lowercase letter. -/
theorem not_lower_of_not_alnum {c : Char} (h : isAlnumA c = false) : isLowerA c = false :=
  not_lower_of_not_letter (not_letter_of_not_alnum h)

/-- A non-alphanumeric character is not an uppercase letter. -/
theorem not_upper_of_not_alnum {c : Char} (h : isAlnumA c = false) : isUpperA c = false :=
  not_upper_of_not_letter (not_letter_of_not_alnum h)

/-- An alphanumeric is never JavaScript whitespace. -/
theorem not_jsWhitespace_of_alnum {c : Char} (h : isAlnumA c = true) :
    isJsWhitespace c = false := by
  cases hw : isJsWhitespace c
  · rfl
  · rw [not_alnum_of_jsWhitespace hw] at h; cases h

/-- No split point ever lies directly before a non-alphanumeric character. -/
theorem splitBoundary_false_right {c d : Char} {rest : List Char}
    (hd : isAlnumA d = false) : splitBoundary c d rest = false := by
  simp [splitBoundary, not_upper_of_not_alnum hd, not_digit_of_not_alnum hd,
    not_letter_of_not_alnum hd]

/-- The split conditions between two characters of a chunk are unchanged
when the chunk is followed by a non-alphanumeric character and more
input instead of ending the string. -/
theorem splitBoundary_append_delim {c1 c2 d : Char} {w2 rest : List Char}
    (hd : isAlnumA d = false) :
    splitBoundary c1 c2 (w2 ++ d :: rest) = splitBoundary c1 c2 w2 := by
  cases w2 with
  | nil => simp [splitBoundary, not_lower_of_not_alnum hd]
  | cons c3 w3 => rfl

/-- A word of lowercase letters has no internal split point. -/
theorem noSplit_of_lower : ∀ w : List Char,
    (∀ c ∈ w, isLowerA c = true) → noSplit w = true := by
  intro w
  induction w with
  | nil => intro _; rfl
  | cons c1 tl ih =>
    intro h
    cases tl with
    | nil => rfl
    | cons c2 rest =>
      have h1 : isLowerA c1 = true := h c1 (by simp)
      have h2 : isLowerA c2 = true := h c2 (by simp)
      have hb : splitBoundary c1 c2 rest = false := by
        simp [splitBoundary, not_upper_of_lower h2,
          not_digit_of_letter (letter_of_lower h2), not_digit_of_letter (letter_of_lower h1)]
      have := ih (fun c hc => h c (by simp at hc ⊢; tauto))
      simp [noSplit, hb, this]

/-- A word of digits has no internal split point. -/
theorem noSplit_of_digit : ∀ w : List Char,
    (∀ c ∈ w, isDigitA c = true) → noSplit w = true := by
  intro w
  induction w with
  | nil => intro _; rfl
  | cons c1 tl ih =>
    intro h
    cases tl with
    | nil => rfl
    | cons c2 rest =>
      have h1 : isDigitA c1 = true := h c1 (by simp)
      have h2 : isDigitA c2 = true := h c2 (by simp)
      have hb : splitBoundary c1 c2 rest = false := by
        simp [splitBoundary, not_letter_of_digit h1, not_letter_of_digit h2,
          not_lower_of_not_letter (not_letter_of_digit h1),
          not_upper_of_not_letter (not_letter_of_digit h1)]
      have := ih (fun c hc => h c (by simp at hc ⊢; tauto))
      simp [noSplit, hb, this]

/-- A word of uppercase letters has no internal split point: the acronym
rule would need a following lowercase letter inside the word. -/
theorem noSplit_of_upper : ∀ w : List Char,
    (∀ c ∈ w, isUpperA c = true) → noSplit w = true := by
  intro w
  induction w with
  | nil => intro _; rfl
  | cons c1 tl ih =>
    intro h
    cases tl with
    | nil => rfl
    | cons c2 rest =>
      have h1 : isUpperA c1 = true := h c1 (by simp)
      have h2 : isUpperA c2 = true := h c2 (by simp)
      have hb : splitBoundary c1 c2 rest = false := by
        cases rest with
        | nil =>
          simp [splitBoundary, not_lower_of_upper h1,
            not_digit_of_letter (letter_of_upper h2), not_digit_of_letter (letter_of_upper h1)]
        | cons c3 r3 =>
          have h3 : isUpperA c3 = true := h c3 (by simp)
          simp [splitBoundary, not_lower_of_upper h1, not_lower_of_upper h3,
            not_digit_of_letter (letter_of_upper h2), not_digit_of_letter (letter_of_upper h1)]
      have := ih (fun c hc => h c (by simp at hc ⊢; tauto))
      simp [noSplit, hb, this]

/-- An uppercase letter followed by lowercase letters has no internal
split point: this is the shape `capitalize` produces on a letter word. -/
theorem noSplit_upper_cons_lower {u : Char} {ls : List Char}
    (hu : isUpperA u = true) (h : ∀ c ∈ ls, isLowerA c = true) :
    noSplit (u :: ls) = true := by
  cases ls with
  | nil => rfl
  | cons c2 rest =>
    have h2 : isLowerA c2 = true := h c2 (by simp)
    have hb : splitBoundary u c2 rest = false := by
      simp [splitBoundary, not_lower_of_upper hu, not_upper_of_lower h2,
        not_digit_of_letter (letter_of_lower h2), not_digit_of_letter (letter_of_upper hu)]
    simp [noSplit, hb, noSplit_of_lower (c2 :: rest) h]

/-- Mapping a function that fixes every element of a list is the identity. -/
theorem map_id_of_mem {α : Type} {f : α → α} : ∀ l : List α,
    (∀ x ∈ l, f x = x) → l.map f = l := by
  intro l
  induction l with
  | nil => intro _; rfl
  | cons x tl ih =>
    intro h
    simp only [List.map_cons]
    rw [h x (by simp), ih (fun y hy => h y (by simp [hy]))]

/-- Every character of a joined list comes from the separator or from
one of the joined words. -/
theorem mem_joinSep {c : Char} {sep : List Char} : ∀ {ws : List (List Char)},
    c ∈ joinSep sep ws → c ∈ sep ∨ ∃ w ∈ ws, c ∈ w := by
  intro ws
  induction ws with
  | nil => intro h; simp [joinSep] at h
  | cons w ws2 ih =>
    intro h
    cases ws2 with
    | nil => exact Or.inr ⟨w, by simp, by simpa [joinSep] using h⟩
    | cons w2 ws3 =>
      simp only [joinSep, List.append_assoc, List.mem_append] at h
      rcases h with h | h | h
      · exact Or.inr ⟨w, by simp, h⟩
      · exact Or.inl h
      · rcases ih h with h' | ⟨w', hw', hc⟩
        · exact Or.inl h'
        · exact Or.inr ⟨w', by simp [hw'], hc⟩

/-- Every character of a capitalized word is the uppercased or
lowercased image of a character of the word. -/
theorem mem_capitalize {c : Char} : ∀ {w : List Char},
    c ∈ capitalize w → ∃ c0 ∈ w, c = asciiUpper c0 ∨ c = asciiLower c0 := by
  intro w h
  cases w with
  | nil => simp [capitalize] at h
  | cons c0 cs =>
    simp only [capitalize, List.mem_cons, List.mem_map] at h
    rcases h with h | ⟨c1, hc1, rfl⟩
    · exact ⟨c0, by simp, Or.inl h⟩
    · exact ⟨c1, by simp [hc1], Or.inr rfl⟩

/-- One-step unfolding of the splitting pass at a cons cell. -/
theorem wordsAux_cons (cur : List Char) (c : Char) (rest : List Char) :
    wordsAux cur (c :: rest) =
      if isAlnumA c then
        if boundaryNext c rest then (cur ++ [c]) :: wordsAux [] rest
        else wordsAux (cur ++ [c]) rest
      else (if cur = [] then [] else [cur]) ++ wordsAux [] rest := rfl

/-- Processing a non-empty all-alphanumeric chunk with no internal split
point, at the end of the input, yields exactly one token: the pending
prefix followed by the chunk. -/
theorem wordsAux_solid : ∀ (w : List Char), w ≠ [] →
    (∀ c ∈ w, isAlnumA c = true) → noSplit w = true →
    ∀ cur : List Char, wordsAux cur w = [cur ++ w] := by
  intro w
  induction w with
  | nil => intro h; cases h rfl
  | cons c tl ih =>
    intro _ halnum hns cur
    have hc : isAlnumA c = true := halnum c (by simp)
    cases tl with
    | nil => simp [wordsAux, boundaryNext, hc]
    | cons c2 rest =>
      have hns' : splitBoundary c c2 rest = false ∧ noSplit (c2 :: rest) = true := by
        simpa [noSplit] using hns
      have hrec := ih (by simp) (fun x hx => halnum x (by simp at hx ⊢; tauto)) hns'.2
        (cur ++ [c])
      have hbn : boundaryNext c (c2 :: rest) = false := by
        simp [boundaryNext, hns'.1]
      rw [wordsAux_cons]
      simp [hc, hbn, hrec]

/-- Processing a non-empty all-alphanumeric chunk with no internal split
point, followed by a non-alphanumeric character and arbitrary further
input, emits the chunk as one token and continues after the delimiter. -/
theorem wordsAux_chunk_delim (d : Char) (hd : isAlnumA d = false) :
    ∀ (w : List Char), w ≠ [] →
    (∀ c ∈ w, isAlnumA c = true) → noSplit w = true →
    ∀ (rest cur : List Char),
    wordsAux cur (w ++ d :: rest) = (cur ++ w) :: wordsAux [] rest := by
  intro w
  induction w with
  | nil => intro h; cases h rfl
  | cons c tl ih =>
    intro _ halnum hns rest cur
    have hc : isAlnumA c = true := halnum c (by simp)
    cases tl with
    | nil =>
      have hb : boundaryNext c (d :: rest) = false := by
        simp [boundaryNext, splitBoundary_false_right hd]
      simp [wordsAux, hc, hb, hd]
    | cons c2 w2 =>
      have hns' : splitBoundary c c2 w2 = false ∧ noSplit (c2 :: w2) = true := by
        simpa [noSplit] using hns
      have hb : splitBoundary c c2 (w2 ++ d :: rest) = false := by
        rw [splitBoundary_append_delim hd]
        exact hns'.1
      have hrec := ih (by simp) (fun x hx => halnum x (by simp at hx ⊢; tauto)) hns'.2
        rest (cur ++ [c])
      simp only [List.cons_append, wordsAux, hc, if_true, boundaryNext] at hrec ⊢
      rw [if_neg (by simp [hb]), hrec]
      simp

/-- Splitting the join of solid words around a non-alphanumeric joiner
recovers exactly the word list. -/
theorem wordsAux_joinSep (d : Char) (hd : isAlnumA d = false) :
    ∀ ws : List (List Char),
    (∀ w ∈ ws, w ≠ [] ∧ (∀ c ∈ w, isAlnumA c = true) ∧ noSplit w = true) →
    wordsAux [] (joinSep [d] ws) = ws := by
  intro ws
  induction ws with
  | nil => intro _; simp [joinSep, wordsAux]
  | cons w ws2 ih =>
    intro hws
    obtain ⟨h1, h2, h3⟩ := hws w (by simp)
    cases ws2 with
    | nil => simpa [joinSep] using wordsAux_solid w h1 h2 h3 []
    | cons w2 ws3 =>
      have hj : joinSep [d] (w :: w2 :: ws3) = w ++ d :: joinSep [d] (w2 :: ws3) := by
        simp [joinSep]
      rw [hj, wordsAux_chunk_delim d hd w h1 h2 h3, ih (fun x hx => hws x (by simp [hx]))]
      simp

/-- Extracting words from the join of solid words around a
non-alphanumeric joiner recovers exactly the word list. -/
theorem extractWords_joinSep (d : Char) (hd : isAlnumA d = false)
    (ws : List (List Char)) (hne : ws ≠ [])
    (hws : ∀ w ∈ ws, w ≠ [] ∧ (∀ c ∈ w, isAlnumA c = true) ∧ noSplit w = true) :
    extractWords (joinSep [d] ws) = ws := by
  obtain ⟨w0, ws', rfl⟩ : ∃ w0 ws', ws = w0 :: ws' := by
    cases ws with
    | nil => cases hne rfl
    | cons a b => exact ⟨a, b, rfl⟩
  obtain ⟨h1, h2, -⟩ := hws w0 (by simp)
  obtain ⟨c0, w0', rfl⟩ : ∃ c0 w0', w0 = c0 :: w0' := by
    cases w0 with
    | nil => cases h1 rfl
    | cons a b => exact ⟨a, b, rfl⟩
  have hc0 : isJsWhitespace c0 = false := not_jsWhitespace_of_alnum (h2 c0 (by simp))
  have hall : ((joinSep [d] ((c0 :: w0') :: ws')).all isJsWhitespace) = false := by
    cases ws' <;> simp [joinSep, hc0]
  unfold extractWords
  rw [hall]
  simp only [Bool.false_eq_true, if_false]
  exact wordsAux_joinSep d hd _ hws

/-- The lowercased image of a non-empty homogeneous alphanumeric word is
again non-empty, alphanumeric and free of internal split points. -/
theorem lowerWord_solid {w : List Char} (h1 : w ≠ [])
    (h2 : ∀ c ∈ w, isAlnumA c = true) (h3 : homogWord w) :
    w.map asciiLower ≠ [] ∧ (∀ c ∈ w.map asciiLower, isAlnumA c = true) ∧
      noSplit (w.map asciiLower) = true := by
  refine ⟨by simpa using h1, ?_, ?_⟩
  · intro c hc
    rcases List.mem_map.mp hc with ⟨c0, hc0, rfl⟩
    exact isAlnumA_asciiLower (h2 c0 hc0)
  · rcases h3 with h3 | h3
    · apply noSplit_of_lower
      intro c hc
      rcases List.mem_map.mp hc with ⟨c0, hc0, rfl⟩
      exact isLowerA_asciiLower_of_letter (h3 c0 hc0)
    · rw [map_id_of_mem w (fun c hc => asciiLower_of_digit (h3 c hc))]
      exact noSplit_of_digit w h3

/-- The uppercased image of a non-empty homogeneous alphanumeric word is
again non-empty, alphanumeric and free of internal split points. -/
theorem upperWord_solid {w : List Char} (h1 : w ≠ [])
    (h2 : ∀ c ∈ w, isAlnumA c = true) (h3 : homogWord w) :
    w.map asciiUpper ≠ [] ∧ (∀ c ∈ w.map asciiUpper, isAlnumA c = true) ∧
      noSplit (w.map asciiUpper) = true := by
  refine ⟨by simpa using h1, ?_, ?_⟩
  · intro c hc
    rcases List.mem_map.mp hc with ⟨c0, hc0, rfl⟩
    exact isAlnumA_asciiUpper (h2 c0 hc0)
  · rcases h3 with h3 | h3
    · apply noSplit_of_upper
      intro c hc
      rcases List.mem_map.mp hc with ⟨c0, hc0, rfl⟩
      exact isUpperA_asciiUpper_of_letter (h3 c0 hc0)
    · rw [map_id_of_mem w (fun c hc => asciiUpper_of_digit (h3 c hc))]
      exact noSplit_of_digit w h3

/-- The capitalized image of a non-empty homogeneous alphanumeric word is
again non-empty, alphanumeric and free of internal split points. -/
theorem capitalize_solid {w : List Char} (h1 : w ≠ [])
    (h2 : ∀ c ∈ w, isAlnumA c = true) (h3 : homogWord w) :
    capitalize w ≠ [] ∧ (∀ c ∈ capitalize w, isAlnumA c = true) ∧
      noSplit (capitalize w) = true := by
  obtain ⟨c0, cs, rfl⟩ : ∃ c0 cs, w = c0 :: cs := by
    cases w with
    | nil => cases h1 rfl
    | cons a b => exact ⟨a, b, rfl⟩
  refine ⟨by simp [capitalize], ?_, ?_⟩
  · intro c hc
    simp only [capitalize, List.mem_cons, List.mem_map] at hc
    rcases hc with rfl | ⟨c1, hc1, rfl⟩
    · exact isAlnumA_asciiUpper (h2 c0 (by simp))
    · exact isAlnumA_asciiLower (h2 c1 (by simp [hc1]))
  · rcases h3 with h3 | h3
    · simp only [capitalize]
      apply noSplit_upper_cons_lower (isUpperA_asciiUpper_of_letter (h3 c0 (by simp)))
      intro c hc
      rcases List.mem_map.mp hc with ⟨c1, hc1, rfl⟩
      exact isLowerA_asciiLower_of_letter (h3 c1 (by simp [hc1]))
    · have hfix : capitalize (c0 :: cs) = c0 :: cs := by
        simp only [capitalize, asciiUpper_of_digit (h3 c0 (by simp))]
        rw [map_id_of_mem cs (fun c hc => asciiLower_of_digit (h3 c (by simp [hc])))]
      rw [hfix]
      exact noSplit_of_digit _ h3

/-- Lowercasing a word twice is the same as lowercasing it once. -/
theorem map_lower_fix (w : List Char) :
    (w.map asciiLower).map asciiLower = w.map asciiLower :=
  map_id_of_mem _ (fun x hx => by
    rcases List.mem_map.mp hx with ⟨c, -, rfl⟩
    exact asciiLower_asciiLower c)

/-- Lowercasing an uppercased word is the same as lowercasing it directly. -/
theorem map_lower_upperWord (w : List Char) :
    (w.map asciiUpper).map asciiLower = w.map asciiLower := by
  induction w with
  | nil => rfl
  | cons c cs ih => simp only [List.map_cons, ih, asciiLower_asciiUpper]

/-- Lowercasing a capitalized word is the same as lowercasing it directly. -/
theorem map_lower_capitalize (w : List Char) :
    (capitalize w).map asciiLower = w.map asciiLower := by
  cases w with
  | nil => rfl
  | cons c cs => simp only [capitalize, List.map_cons, asciiLower_asciiUpper, map_lower_fix cs]

/-- Per-word lower-equivalence lifts to lists of words. -/
theorem map_map_lower_congr {f : List Char → List Char}
    (hf : ∀ w, (f w).map asciiLower = w.map asciiLower) (ws : List (List Char)) :
    (ws.map f).map (List.map asciiLower) = ws.map (List.map asciiLower) := by
  induction ws with
  | nil => rfl
  | cons w ws ih => simp only [List.map_cons, hf, ih]

/-- Every character of a space-join of lowercased words is fixed by
lowercasing. -/
theorem joined_lower_fixed (ws : List (List Char)) :
    ∀ c ∈ joinSep [' '] (ws.map (List.map asciiLower)), asciiLower c = c := by
  intro c hc
  rcases mem_joinSep hc with hc | ⟨w, hw, hcw⟩
  · simp at hc; subst hc; decide
  · rcases List.mem_map.mp hw with ⟨w0, -, rfl⟩
    rcases List.mem_map.mp hcw with ⟨c0, -, rfl⟩
    exact asciiLower_asciiLower c0

/-- Sentence case decomposed into a word join: capitalizing the joined
lowercased words only uppercases the first character of the first word,
since every other character is already fixed by lowercasing. -/
theorem sentence_decomp (c0 : Char) (cs0 : List Char) (wr : List (List Char)) :
    capitalize (joinSep [' '] (((c0 :: cs0) :: wr).map (List.map asciiLower))) =
      joinSep [' '] (upperFirst ((c0 :: cs0).map asciiLower) :: wr.map (List.map asciiLower)) := by
  cases wr with
  | nil => simp [joinSep, capitalize, upperFirst, map_lower_fix cs0]
  | cons w1 wr1 =>
    have hfix : (List.map asciiLower cs0 ++
        ' ' :: joinSep [' '] ((w1 :: wr1).map (List.map asciiLower))).map asciiLower =
        List.map asciiLower cs0 ++
        ' ' :: joinSep [' '] ((w1 :: wr1).map (List.map asciiLower)) := by
      apply map_id_of_mem
      intro x hx
      rcases List.mem_append.mp hx with hx | hx
      · rcases List.mem_map.mp hx with ⟨c1, -, rfl⟩
        exact asciiLower_asciiLower c1
      · rcases List.mem_cons.mp hx with rfl | hx
        · decide
        · exact joined_lower_fixed (w1 :: wr1) x hx
    simp only [List.map_cons] at hfix
    simp only [List.map_cons, joinSep, List.cons_append, List.append_assoc,
      List.singleton_append, List.nil_append, capitalize, upperFirst, hfix]

/-- The lowercased image of the sentence-case first word agrees with the
lowercased original word. -/
theorem map_lower_upperFirst_lower (w : List Char) :
    (upperFirst (w.map asciiLower)).map asciiLower = w.map asciiLower := by
  cases w with
  | nil => rfl
  | cons c cs =>
    simp only [List.map_cons, upperFirst, asciiLower_asciiUpper,
      asciiLower_asciiLower, map_lower_fix cs]

/-- The sentence-case first word of a non-empty homogeneous alphanumeric
word is non-empty, alphanumeric and free of internal split points. -/
theorem upperFirst_lower_solid {w : List Char} (h1 : w ≠ [])
    (h2 : ∀ c ∈ w, isAlnumA c = true) (h3 : homogWord w) :
    upperFirst (w.map asciiLower) ≠ [] ∧
      (∀ c ∈ upperFirst (w.map asciiLower), isAlnumA c = true) ∧
      noSplit (upperFirst (w.map asciiLower)) = true := by
  obtain ⟨c0, cs, rfl⟩ : ∃ c0 cs, w = c0 :: cs := by
    cases w with
    | nil => cases h1 rfl
    | cons a b => exact ⟨a, b, rfl⟩
  simp only [List.map_cons, upperFirst]
  refine ⟨by simp, ?_, ?_⟩
  · intro c hc
    rcases List.mem_cons.mp hc with rfl | hc
    · exact isAlnumA_asciiUpper (isAlnumA_asciiLower (h2 c0 (by simp)))
    · rcases List.mem_map.mp hc with ⟨c1, hc1, rfl⟩
      exact isAlnumA_asciiLower (h2 c1 (by simp [hc1]))
  · rcases h3 with h3 | h3
    · apply noSplit_upper_cons_lower
      · exact isUpperA_asciiUpper_of_letter
          (letter_of_lower (isLowerA_asciiLower_of_letter (h3 c0 (by simp))))
      · intro c hc
        rcases List.mem_map.mp hc with ⟨c1, hc1, rfl⟩
        exact isLowerA_asciiLower_of_letter (h3 c1 (by simp [hc1]))
    · have hc0 : isDigitA c0 = true := h3 c0 (by simp)
      rw [asciiLower_of_digit hc0, asciiUpper_of_digit hc0,
        map_id_of_mem cs (fun c hc => asciiLower_of_digit (h3 c (by simp [hc])))]
      exact noSplit_of_digit _ h3

/-- Extracting words from the join of per-word-transformed extracted
words recovers exactly the transformed word list, for any transform that
keeps words non-empty, alphanumeric and free of split points. -/
theorem extractWords_join_transformed {f : List Char → List Char}
    (hf : ∀ w : List Char, w ≠ [] → (∀ c ∈ w, isAlnumA c = true) → homogWord w →
      f w ≠ [] ∧ (∀ c ∈ f w, isAlnumA c = true) ∧ noSplit (f w) = true)
    (d : Char) (hd : isAlnumA d = false) (s : List Char)
    (hne : extractWords s ≠ []) :
    extractWords (joinSep [d] ((extractWords s).map f)) = (extractWords s).map f := by
  apply extractWords_joinSep d hd
  · simpa using hne
  · intro w hw
    rcases List.mem_map.mp hw with ⟨w0, hw0, rfl⟩
    obtain ⟨p1, p2, p3⟩ := extractWords_mem_props hw0
    exact hf w0 p1 p2 p3

/-- C4: for the seven separator-keeping case types, re-extracting words
from the conversion output yields the same word sequence as extracting
from the input, case-insensitively: equal lists after lowercasing every
word, hence the same number of words in the same order. -/
theorem convertCase_retokenize_eq (s : List Char) (ct : String) (out : List Char)
    (hct : ct ∈ (["lowercase", "uppercase", "sentence", "title", "snake", "kebab", "dot"] :
      List String))
    (hout : convertCase s ct = Except.ok out) :
    (extractWords out).map (List.map asciiLower) =
      (extractWords s).map (List.map asciiLower) := by
  by_cases hlen : (extractWords s).length = 0
  · have hnil : extractWords s = [] := List.length_eq_zero.mp hlen
    simp only [convertCase, hlen, if_true, Except.ok.injEq] at hout
    subst hout
    rw [hnil]
    rfl
  · have hne : extractWords s ≠ [] := by simpa [List.length_eq_zero] using hlen
    simp only [List.mem_cons, List.not_mem_nil, or_false] at hct
    rcases hct with rfl | rfl | rfl | rfl | rfl | rfl | rfl
    · -- lowercase
      simp [convertCase, hlen] at hout
      subst hout
      rw [extractWords_join_transformed
        (fun w a b c => lowerWord_solid a b c) ' ' (by decide) s hne]
      exact map_map_lower_congr map_lower_fix _
    · -- uppercase
      simp [convertCase, hlen] at hout
      subst hout
      rw [extractWords_join_transformed
        (fun w a b c => upperWord_solid a b c) ' ' (by decide) s hne]
      exact map_map_lower_congr map_lower_upperWord _
    · -- sentence
      simp [convertCase, hlen] at hout
      obtain ⟨w0, wr, hws⟩ : ∃ w0 wr, extractWords s = w0 :: wr := by
        cases h : extractWords s with
        | nil => cases hne h
        | cons a b => exact ⟨a, b, rfl⟩
      obtain ⟨p1, p2, p3⟩ := extractWords_mem_props (s := s) (w := w0) (by simp [hws])
      obtain ⟨c0, cs0, hw0⟩ : ∃ c0 cs0, w0 = c0 :: cs0 := by
        cases w0 with
        | nil => cases p1 rfl
        | cons a b => exact ⟨a, b, rfl⟩
      subst hw0
      rw [hws, sentence_decomp] at hout
      have hex : extractWords (joinSep [' ']
          (upperFirst ((c0 :: cs0).map asciiLower) :: wr.map (List.map asciiLower))) =
          upperFirst ((c0 :: cs0).map asciiLower) :: wr.map (List.map asciiLower) := by
        apply extractWords_joinSep ' ' (by decide) _ (by simp)
        intro w hw
        rcases List.mem_cons.mp hw with rfl | hw
        · exact upperFirst_lower_solid p1 p2 p3
        · rcases List.mem_map.mp hw with ⟨w1, hw1, rfl⟩
          obtain ⟨q1, q2, q3⟩ := extractWords_mem_props (s := s) (w := w1)
            (by simp [hws, hw1])
          exact lowerWord_solid q1 q2 q3
      subst hout
      rw [hex, hws]
      have h1 := map_lower_upperFirst_lower (c0 :: cs0)
      have h2 := map_map_lower_congr map_lower_fix wr
      simp only [List.map_cons] at h1 ⊢
      rw [h1, h2]
    · -- title
      simp [convertCase, hlen] at hout
      subst hout
      rw [extractWords_join_transformed
        (fun w a b c => capitalize_solid a b c) ' ' (by decide) s hne]
      exact map_map_lower_congr map_lower_capitalize _
    · -- snake
      simp [convertCase, hlen] at hout
      subst hout
      rw [extractWords_join_transformed
        (fun w a b c => lowerWord_solid a b c) '_' (by decide) s hne]
      exact map_map_lower_congr map_lower_fix _
    · -- kebab
      simp [convertCase, hlen] at hout
      subst hout
      rw [extractWords_join_transformed
        (fun w a b c => lowerWord_solid a b c) '-' (by decide) s hne]
      exact map_map_lower_congr map_lower_fix _
    · -- dot
      simp [convertCase, hlen] at hout
      subst hout
      rw [extractWords_join_transformed
        (fun w a b c => lowerWord_solid a b c) '.' (by decide) s hne]
      exact map_map_lower_congr map_lower_fix _

/-- Witness for C4 at the concrete input `"helloWorld"` with case type
`"snake"`, whose output is `"hello_world"`. -/
theorem convertCase_retokenize_eq_witness :
    (extractWords "hello_world".toList).map (List.map asciiLower) =
      (extractWords "helloWorld".toList).map (List.map asciiLower) :=
  convertCase_retokenize_eq "helloWorld".toList "snake" "hello_world".toList
    (by decide) (by rfl)

/-- C5: for the four lower-joiner case types snake, kebab, dot and
constant, re-extracting words from the conversion output yields exactly
as many words as extracting from the input. -/
theorem convertCase_preserves_word_count (s : List Char) (ct : String) (out : List Char)
    (hct : ct ∈ (["snake", "kebab", "dot", "constant"] : List String))
    (hout : convertCase s ct = Except.ok out) :
    (extractWords out).length = (extractWords s).length := by
  by_cases hlen : (extractWords s).length = 0
  · have hnil : extractWords s = [] := List.length_eq_zero.mp hlen
    simp only [convertCase, hlen, if_true, Except.ok.injEq] at hout
    subst hout
    rw [hnil]
    rfl
  · have hne : extractWords s ≠ [] := by simpa [List.length_eq_zero] using hlen
    simp only [List.mem_cons, List.not_mem_nil, or_false] at hct
    rcases hct with rfl | rfl | rfl | rfl
    · simp [convertCase, hlen] at hout
      subst hout
      rw [extractWords_join_transformed
        (fun w a b c => lowerWord_solid a b c) '_' (by decide) s hne]
      simp
    · simp [convertCase, hlen] at hout
      subst hout
      rw [extractWords_join_transformed
        (fun w a b c => lowerWord_solid a b c) '-' (by decide) s hne]
      simp
    · simp [convertCase, hlen] at hout
      subst hout
      rw [extractWords_join_transformed
        (fun w a b c => lowerWord_solid a b c) '.' (by decide) s hne]
      simp
    · simp [convertCase, hlen] at hout
      subst hout
      rw [extractWords_join_transformed
        (fun w a b c => upperWord_solid a b c) '_' (by decide) s hne]
      simp

/-- Witness for C5 at the concrete input `"fooBar"` with case type
`"constant"`, whose output is `"FOO_BAR"`. -/
theorem convertCase_preserves_word_count_witness :
    (extractWords "FOO_BAR".toList).length = (extractWords "fooBar".toList).length :=
  convertCase_preserves_word_count "fooBar".toList "constant" "FOO_BAR".toList
    (by decide) (by rfl)

/-- C8: for every recognized case type, every character of the output is
an ASCII letter, an ASCII digit, or a joiner character of that case type
(space, underscore, hyphen or dot; none for camel and pascal). -/
theorem convertCase_output_chars (s : List Char) (ct : String) (out : List Char)
    (hct : ct ∈ validCaseTypes) (hout : convertCase s ct = Except.ok out) :
    ∀ c ∈ out, isAlnumA c = true ∨ c ∈ joinerOf ct := by
  by_cases hlen : (extractWords s).length = 0
  · simp only [convertCase, hlen, if_true, Except.ok.injEq] at hout
    subst hout
    intro c hc
    simp at hc
  · have hne : extractWords s ≠ [] := by simpa [List.length_eq_zero] using hlen
    have hwprops : ∀ w ∈ extractWords s, ∀ c ∈ w, isAlnumA c = true :=
      fun w hw => (extractWords_mem_props hw).2.1
    have hheadmem : (extractWords s).head?.getD [] ∈ extractWords s := by
      cases h : extractWords s with
      | nil => cases hne h
      | cons a b => simp
    simp only [validCaseTypes, List.mem_cons, List.not_mem_nil, or_false] at hct
    rcases hct with rfl | rfl | rfl | rfl | rfl | rfl | rfl | rfl | rfl | rfl
    · -- lowercase
      simp [convertCase, hlen] at hout
      subst hout
      intro c hc
      rcases mem_joinSep hc with hc | ⟨w, hw, hcw⟩
      · right; simpa [joinerOf] using hc
      · left
        rcases List.mem_map.mp hw with ⟨w0, hw0, rfl⟩
        rcases List.mem_map.mp hcw with ⟨c0, hc0, rfl⟩
        exact isAlnumA_asciiLower (hwprops w0 hw0 c0 hc0)
    · -- uppercase
      simp [convertCase, hlen] at hout
      subst hout
      intro c hc
      rcases mem_joinSep hc with hc | ⟨w, hw, hcw⟩
      · right; simpa [joinerOf] using hc
      · left
        rcases List.mem_map.mp hw with ⟨w0, hw0, rfl⟩
        rcases List.mem_map.mp hcw with ⟨c0, hc0, rfl⟩
        exact isAlnumA_asciiUpper (hwprops w0 hw0 c0 hc0)
    · -- sentence
      simp [convertCase, hlen] at hout
      subst hout
      intro c hc
      rcases mem_capitalize hc with ⟨c1, hc1, hcc⟩
      rcases mem_joinSep hc1 with hsp | ⟨w, hw, hcw⟩
      · simp at hsp
        subst hsp
        right
        rcases hcc with rfl | rfl
        · have h : asciiUpper ' ' = ' ' := by decide
          rw [h]; simp [joinerOf]
        · have h : asciiLower ' ' = ' ' := by decide
          rw [h]; simp [joinerOf]
      · left
        rcases List.mem_map.mp hw with ⟨w0, hw0, rfl⟩
        rcases List.mem_map.mp hcw with ⟨c0, hc0, rfl⟩
        have halnum := isAlnumA_asciiLower (hwprops w0 hw0 c0 hc0)
        rcases hcc with rfl | rfl
        · exact isAlnumA_asciiUpper halnum
        · exact isAlnumA_asciiLower halnum
    · -- title
      simp [convertCase, hlen] at hout
      subst hout
      intro c hc
      rcases mem_joinSep hc with hc | ⟨w, hw, hcw⟩
      · right; simpa [joinerOf] using hc
      · left
        rcases List.mem_map.mp hw with ⟨w0, hw0, rfl⟩
        rcases mem_capitalize hcw with ⟨c0, hc0, hcc⟩
        rcases hcc with rfl | rfl
        · exact isAlnumA_asciiUpper (hwprops w0 hw0 c0 hc0)
        · exact isAlnumA_asciiLower (hwprops w0 hw0 c0 hc0)
    · -- snake
      simp [convertCase, hlen] at hout
      subst hout
      intro c hc
      rcases mem_joinSep hc with hc | ⟨w, hw, hcw⟩
      · right; simpa [joinerOf] using hc
      · left
        rcases List.mem_map.mp hw with ⟨w0, hw0, rfl⟩
        rcases List.mem_map.mp hcw with ⟨c0, hc0, rfl⟩
        exact isAlnumA_asciiLower (hwprops w0 hw0 c0 hc0)
    · -- kebab
      simp [convertCase, hlen] at hout
      subst hout
      intro c hc
      rcases mem_joinSep hc with hc | ⟨w, hw, hcw⟩
      · right; simpa [joinerOf] using hc
      · left
        rcases List.mem_map.mp hw with ⟨w0, hw0, rfl⟩
        rcases List.mem_map.mp hcw with ⟨c0, hc0, rfl⟩
        exact isAlnumA_asciiLower (hwprops w0 hw0 c0 hc0)
    · -- camel
      simp [convertCase, hlen] at hout
      by_cases hl1 : (extractWords s).length = 1
      · simp only [hl1, if_true] at hout
        subst hout
        intro c hc
        left
        rcases List.mem_map.mp hc with ⟨c0, hc0, rfl⟩
        exact isAlnumA_asciiLower (hwprops _ hheadmem c0 hc0)
      · simp only [hl1, if_false] at hout
        subst hout
        intro c hc
        left
        rcases List.mem_append.mp hc with hc | hc
        · rcases List.mem_map.mp hc with ⟨c0, hc0, rfl⟩
          exact isAlnumA_asciiLower (hwprops _ hheadmem c0 hc0)
        · rcases mem_joinSep hc with hc | ⟨w, hw, hcw⟩
          · simp at hc
          · rcases List.mem_map.mp (List.tail_subset _ hw) with ⟨w0, hw0, rfl⟩
            rcases mem_capitalize hcw with ⟨c0, hc0, hcc⟩
            rcases hcc with rfl | rfl
            · exact isAlnumA_asciiUpper (hwprops w0 hw0 c0 hc0)
            · exact isAlnumA_asciiLower (hwprops w0 hw0 c0 hc0)
    · -- pascal
      simp [convertCase, hlen] at hout
      subst hout
      intro c hc
      left
      rcases mem_joinSep hc with hc | ⟨w, hw, hcw⟩
      · simp at hc
      · rcases List.mem_map.mp hw with ⟨w0, hw0, rfl⟩
        rcases mem_capitalize hcw with ⟨c0, hc0, hcc⟩
        rcases hcc with rfl | rfl
        · exact isAlnumA_asciiUpper (hwprops w0 hw0 c0 hc0)
        · exact isAlnumA_asciiLower (hwprops w0 hw0 c0 hc0)
    · -- dot
      simp [convertCase, hlen] at hout
      subst hout
      intro c hc
      rcases mem_joinSep hc with hc | ⟨w, hw, hcw⟩
      · right; simpa [joinerOf] using hc
      · left
        rcases List.mem_map.mp hw with ⟨w0, hw0, rfl⟩
        rcases List.mem_map.mp hcw with ⟨c0, hc0, rfl⟩
        exact isAlnumA_asciiLower (hwprops w0 hw0 c0 hc0)
    · -- constant
      simp [convertCase, hlen] at hout
      subst hout
      intro c hc
      rcases mem_joinSep hc with hc | ⟨w, hw, hcw⟩
      · right; simpa [joinerOf] using hc
      · left
        rcases List.mem_map.mp hw with ⟨w0, hw0, rfl⟩
        rcases List.mem_map.mp hcw with ⟨c0, hc0, rfl⟩
        exact isAlnumA_asciiUpper (hwprops w0 hw0 c0 hc0)

/-- Witness for C8 at the concrete input `"helloWorld"` with case type
`"snake"`, output `"hello_world"`, and the underscore character. -/
theorem convertCase_output_chars_witness :
    isAlnumA '_' = true ∨ '_' ∈ joinerOf "snake" :=
  convertCase_output_chars "helloWorld".toList "snake" "hello_world".toList
    (by decide) (by rfl) '_' (by decide)
